import Mathlib

/-!
Verification of the InvoiceTranslator repository.

The repository has two Python source files, `translate.py` and
`pdf_translator_structured.py`.  Their core is pure string manipulation:
a mapping loader (`load_mapping`), a per-paragraph substitution engine
(`replace_in_paragraph`, in two variants), a document driver
(`translate_document` / `translate_document_preserve_formatting`) and a
batch driver (`main`).  Strings are embedded as `List Char`; Python's
`str.replace` (left-to-right, non-overlapping, replace-all) and the `in`
substring test are embedded as executable functions below, and the
stateful loops of the Python code become `List.foldl` over the mapping
entries with the mutated runs as the accumulator.
-/

namespace InvoiceTranslator

/-- A Python string, embedded as a list of characters. -/
abbrev Str := List Char

/-- An ordered word mapping, as produced by `load_mapping`: a list of
(source, target) pairs in insertion order. -/
abbrev Mapping := List (Str × Str)

/-- Boolean prefix test on character lists (`pat` is a prefix of `s`). -/
def isPfx : Str → Str → Bool
  | [], _ => true
  | _ :: _, [] => false
  | a :: as, b :: bs => a == b && isPfx as bs

/-- Python's substring test `pat in s`. -/
def occursB (pat : Str) : Str → Bool
  | [] => pat.isEmpty
  | c :: t => isPfx pat (c :: t) || occursB pat t

/-- Core of Python's `str.replace` for a non-empty pattern: scan left to
right, replacing non-overlapping occurrences.  The `fuel` argument makes
the recursion structural (it is always called with `fuel = s.length`,
which suffices because every step consumes at least one character). -/
def replCore (pat rep : Str) : Nat → Str → Str
  | _, [] => []
  | 0, s => s
  | fuel + 1, c :: cs =>
    if isPfx pat (c :: cs) then rep ++ replCore pat rep fuel ((c :: cs).drop pat.length)
    else c :: replCore pat rep fuel cs

/-- Python's `s.replace(pat, rep)` (replace all occurrences).  An empty
pattern inserts `rep` before every character and at the end, exactly as
in Python. -/
def pyReplace (pat rep s : Str) : Str :=
  if pat.isEmpty then rep ++ s.foldr (fun c acc => c :: (rep ++ acc)) []
  else replCore pat rep s.length s

/-- A paragraph's aggregate text: the concatenation of its runs' texts
(python-docx `paragraph.text`). -/
def aggText : List Str → Str
  | [] => []
  | r :: rs => r ++ aggText rs

/-- One step of the sequential replace-all loop:
`new_text = new_text.replace(src, dst)`. -/
def applyStep (t : Str) (p : Str × Str) : Str :=
  pyReplace p.1 p.2 t

/-- Apply every mapping entry to a text, in insertion order (the inner
loop of the paragraph-rebuild pass of `replace_in_paragraph` in
`pdf_translator_structured.py`, lines 50-51). -/
def applyAll (mapping : Mapping) (t : Str) : Str :=
  mapping.foldl applyStep t

/-- One mapping entry of the run-local pass (`translate.py` lines 20-24
and `pdf_translator_structured.py` lines 39-43): if the source occurs in
the paragraph's aggregate text, every run whose own text contains the
source has its occurrences replaced. -/
def runLocalStep (rs : List Str) (p : Str × Str) : List Str :=
  if occursB p.1 (aggText rs) then
    rs.map (fun r => if occursB p.1 r then pyReplace p.1 p.2 r else r)
  else rs

namespace Translate

/-- `replace_in_paragraph` of `translate.py` (lines 19-24): the run-local
pass only, iterated over the mapping entries in order.  A paragraph is
its list of run texts; the result is the mutated list of run texts. -/
def replace_in_paragraph (mapping : Mapping) (runs : List Str) : List Str :=
  mapping.foldl runLocalStep runs

end Translate

namespace Structured

/-- One mapping entry of the paragraph-rebuild pass
(`pdf_translator_structured.py` lines 46-58): if the source occurs in the
current aggregate text, the fully substituted aggregate (all entries, in
order) is written into the first run and all later runs are blanked; with
no runs nothing happens. -/
def rebuildStep (mapping : Mapping) (rs : List Str) (p : Str × Str) : List Str :=
  if occursB p.1 (aggText rs) then
    match rs with
    | [] => []
    | _ :: rest => applyAll mapping (aggText rs) :: rest.map (fun _ => ([] : Str))
  else rs

/-- `replace_in_paragraph` of `pdf_translator_structured.py` (lines
37-58): the run-local pass followed by the paragraph-rebuild pass. -/
def replace_in_paragraph (mapping : Mapping) (runs : List Str) : List Str :=
  mapping.foldl (rebuildStep mapping) (Translate.replace_in_paragraph mapping runs)

/-- One mapping entry of the final re-pass over a paragraph's text
(`pdf_translator_structured.py` lines 161-164): the accumulator carries
the current text and the `modified` flag. -/
def finalStep (acc : Str × Bool) (p : Str × Str) : Str × Bool :=
  if occursB p.1 acc.1 then (pyReplace p.1 p.2 acc.1, true) else acc

/-- The text-and-flag loop of the final re-pass
(`pdf_translator_structured.py` lines 159-164). -/
def finalFold (mapping : Mapping) (t : Str) : Str × Bool :=
  mapping.foldl finalStep (t, false)

/-- The final re-pass of `translate_document_preserve_formatting` on one
paragraph (`pdf_translator_structured.py` lines 157-173): skipped when
the aggregate text is empty (`if paragraph.text:`); otherwise, when any
entry fired, all runs are blanked and the substituted text is written
into the first run, a fresh run being added when there was none. -/
def finalPass (mapping : Mapping) (runs : List Str) : List Str :=
  if (aggText runs).isEmpty then runs
  else if (finalFold mapping (aggText runs)).2 then
    match runs with
    | [] => [(finalFold mapping (aggText runs)).1]
    | _ :: rest => (finalFold mapping (aggText runs)).1 :: rest.map (fun _ => ([] : Str))
  else runs

/-- The substitution engine applied to one top-level paragraph by
`translate_document_preserve_formatting`: `replace_in_paragraph` followed
by the final re-pass. -/
def engine (mapping : Mapping) (runs : List Str) : List Str :=
  finalPass mapping (replace_in_paragraph mapping runs)

end Structured

/-! ## Mapping loader (`load_mapping`, identical in both source files) -/

/-- Python's `line.strip()`: remove leading and trailing whitespace. -/
def pyStrip (s : Str) : Str :=
  ((s.dropWhile Char.isWhitespace).reverse.dropWhile Char.isWhitespace).reverse

/-- Python's membership test for a single character (`c in line`). -/
def hasChar (s : Str) (c : Char) : Bool :=
  s.any (fun d => d == c)

/-- Python's `line.split(sep, 1)` for a one-character separator, on a line
known to contain it: everything before the first separator, paired with
everything after it. -/
def splitFirst (sep : Char) : Str → Str × Str
  | [] => ([], [])
  | c :: cs =>
    if c == sep then ([], cs)
    else ((c :: (splitFirst sep cs).1), (splitFirst sep cs).2)

/-- Python's `mapping[src] = dst` on an insertion-ordered dict: an
existing key keeps its position and gets the new value, a new key is
appended. -/
def dictInsert (m : Mapping) (k v : Str) : Mapping :=
  if m.any (fun p => p.1 == k) then m.map (fun p => if p.1 == k then (p.1, v) else p)
  else m ++ [(k, v)]

/-- One loop iteration of `load_mapping` (`translate.py` lines 10-15):
strip the line, skip it when empty or without an equals sign, otherwise
split on the first equals sign and insert the pair. -/
def processLine (m : Mapping) (raw : Str) : Mapping :=
  let line := pyStrip raw
  if line.isEmpty || !(hasChar line '=') then m
  else dictInsert m (splitFirst '=' line).1 (splitFirst '=' line).2

/-- Split a file's content into lines at newline characters (Python's
line iteration; a trailing newline yields one extra empty line here,
which `processLine` skips, so the resulting mapping is identical). -/
def splitLines : Str → List Str
  | [] => [[]]
  | c :: cs =>
    if c == '\n' then [] :: splitLines cs
    else
      match splitLines cs with
      | [] => [[c]]
      | l :: ls => (c :: l) :: ls

/-- `load_mapping` (`translate.py` lines 6-16 and
`pdf_translator_structured.py` lines 10-20), applied to the content of
the mapping file. -/
def load_mapping (content : Str) : Mapping :=
  (splitLines content).foldl processLine []

/-! ## Paths, the document tree and the filesystem model

`translate_document` (`translate.py` lines 41-53) loads a document, runs
the substitution engine over paragraphs, tables and section
headers/footers, creates the output directory and saves the result under
`<output_dir>/<stem>_translated<suffix>`.  The document tree is embedded
structurally; the filesystem is a list of directories and a list of
(path, document) pairs where a save prepends (so a fresh save shadows an
older file at the same path). -/

/-- The final component of a path (Python `Path.name`): everything after
the last slash. -/
def baseName : Str → Str
  | [] => []
  | c :: rest => if hasChar (c :: rest) '/' then baseName rest else c :: rest

/-- Index of the last dot of a name, or `0` when there is none (a dot at
index 0 and "no dot" coincide here, exactly the two cases in which
`pathlib` declares the suffix empty together with a trailing dot). -/
def lastDotPos (name : Str) : Nat :=
  match List.findIdx? (fun c => c == '.') name.reverse with
  | none => 0
  | some j => name.length - 1 - j

/-- Python `Path.suffix` of a final path component: from the last dot on,
provided that dot is neither the first nor the last character. -/
def pathSuffix (name : Str) : Str :=
  if 0 < lastDotPos name ∧ lastDotPos name + 1 < name.length then name.drop (lastDotPos name)
  else []

/-- Python `Path.stem` of a final path component: the name minus its
suffix. -/
def pathStem (name : Str) : Str :=
  if 0 < lastDotPos name ∧ lastDotPos name + 1 < name.length then name.take (lastDotPos name)
  else name

/-- The literal `_translated` inserted into output file names. -/
def translatedTag : Str := "_translated".toList

/-- The output file name `f"{doc_path.stem}_translated{doc_path.suffix}"`
(`translate.py` line 51). -/
def outputName (docPath : Str) : Str :=
  pathStem (baseName docPath) ++ translatedTag ++ pathSuffix (baseName docPath)

/-- The output path `output_dir / f"{stem}_translated{suffix}"`. -/
def outputPath (outDir docPath : Str) : Str :=
  outDir ++ '/' :: outputName docPath

/-- A cell of a table: a list of paragraphs (each a list of run texts). -/
structure Cell where
  paragraphs : List (List Str)

/-- A table: rows of cells. -/
structure Table where
  rows : List (List Cell)

/-- A header or footer: paragraphs and tables. -/
structure HeaderFooter where
  paragraphs : List (List Str)
  tables : List Table

/-- A document section: a header and a footer. -/
structure Sectn where
  header : HeaderFooter
  footer : HeaderFooter

/-- The docx document tree consumed by the drivers: top-level paragraphs,
top-level tables, and sections. -/
structure Docx where
  paragraphs : List (List Str)
  tables : List Table
  sections : List Sectn

namespace Translate

/-- `replace_in_table` (`translate.py` lines 27-31): substitution in every
paragraph of every cell of every row. -/
def replace_in_table (mapping : Mapping) (t : Table) : Table :=
  ⟨t.rows.map (fun row => row.map (fun cell => ⟨cell.paragraphs.map (replace_in_paragraph mapping)⟩))⟩

/-- `replace_in_header_footer` (`translate.py` lines 34-38). -/
def replace_in_header_footer (mapping : Mapping) (hf : HeaderFooter) : HeaderFooter :=
  ⟨hf.paragraphs.map (replace_in_paragraph mapping), hf.tables.map (replace_in_table mapping)⟩

/-- The in-memory mutation performed by `translate_document` on the loaded
document (`translate.py` lines 43-49). -/
def translateDocx (mapping : Mapping) (d : Docx) : Docx :=
  ⟨d.paragraphs.map (replace_in_paragraph mapping),
   d.tables.map (replace_in_table mapping),
   d.sections.map (fun s =>
     ⟨replace_in_header_footer mapping s.header, replace_in_header_footer mapping s.footer⟩)⟩

end Translate

/-- The filesystem state: existing directories and saved files.  Lookup
returns the most recently saved document at a path. -/
structure FS where
  dirs : List Str
  files : List (Str × Docx)

/-- Read the document stored at a path, if any. -/
def lookupFile (fs : FS) (p : Str) : Option Docx :=
  (fs.files.find? (fun q => q.1 == p)).map (fun q => q.2)

/-- `output_dir.mkdir(parents=True, exist_ok=True)`. -/
def mkdirParents (fs : FS) (d : Str) : FS :=
  ⟨d :: fs.dirs, fs.files⟩

/-- `doc.save(output_path)`: the new file shadows any earlier file at the
same path; nothing else changes. -/
def saveFile (fs : FS) (p : Str) (doc : Docx) : FS :=
  ⟨fs.dirs, (p, doc) :: fs.files⟩

namespace Translate

/-- `translate_document` (`translate.py` lines 41-53) over the filesystem
model: load the document at `docPath` (`none` when it does not exist),
mutate it in memory, create the output directory, save the mutated tree
at the derived output path and return it together with the new
filesystem state. -/
def translate_document (fs : FS) (docPath : Str) (mapping : Mapping) (outDir : Str) :
    Option (FS × Str) :=
  match lookupFile fs docPath with
  | none => none
  | some doc =>
    let op := outputPath outDir docPath
    some (saveFile (mkdirParents fs outDir) op (translateDocx mapping doc), op)

end Translate

/-! ## Batch driver (`main` of `pdf_translator_structured.py`, lines 234-246)

Per-file processing (`process_pdf_to_structured_docx`) performs I/O and
conversion, so it is abstracted as a function from the file path to an
`Except`: an exception, `none` (conversion failed, reported), or a
produced output path.  The driver's loop catches the exception at the
per-file boundary and keeps iterating. -/

/-- Outcome of one file of the batch, as reported by the driver. -/
inductive JobResult where
  | succeeded (outPath : Str) : JobResult
  | failed : JobResult
  | errored : JobResult
deriving DecidableEq, Repr

/-- One iteration of the batch loop: the `try`/`except` block of `main`
(`pdf_translator_structured.py` lines 239-246). -/
def runFile (process : Str → Except Str (Option Str)) (f : Str) : JobResult :=
  match process f with
  | Except.ok (some p) => JobResult.succeeded p
  | Except.ok none => JobResult.failed
  | Except.error _ => JobResult.errored

/-- The batch loop of `main`: process every file in order, one outcome
per file. -/
def batchLoop (process : Str → Except Str (Option Str)) : List Str → List JobResult
  | [] => []
  | f :: fs => runFile process f :: batchLoop process fs

/-- The precondition "no target string reintroduces (contains or creates)
any source string" of the substitution claims, made semantic: one
in-order application of the whole mapping to any text leaves no
occurrence of any source.  (Mere non-containment is weaker, because a
replacement can create an occurrence across the seam of the inserted
target, as the counterexamples below show.) -/
def NoResidual (M : Mapping) : Prop :=
  ∀ p ∈ M, ∀ t : Str, occursB p.1 (applyAll M t) = false

/-! ## Helper lemmas -/

lemma occursB_nil_pat (s : Str) : occursB [] s = true := by
  cases s <;> simp [occursB, isPfx]

lemma replCore_id (pat rep : Str) : ∀ (s : Str) (fuel : Nat),
    occursB pat s = false → replCore pat rep fuel s = s := by
  intro s
  induction s with
  | nil => intro fuel _; cases fuel <;> rfl
  | cons c cs ih =>
    intro fuel h
    simp only [occursB, Bool.or_eq_false_iff] at h
    obtain ⟨h1, h2⟩ := h
    cases fuel with
    | zero => rfl
    | succ f => simp only [replCore, h1, Bool.false_eq_true, if_false]
                exact congrArg (c :: ·) (ih f h2)

lemma isEmpty_false_of_ne_nil {s : Str} (h : s ≠ []) : s.isEmpty = false := by
  cases s with
  | nil => exact absurd rfl h
  | cons c cs => rfl

lemma pyReplace_id (pat rep s : Str) (hp : pat ≠ []) (h : occursB pat s = false) :
    pyReplace pat rep s = s := by
  rw [pyReplace, isEmpty_false_of_ne_nil hp]
  simp only [Bool.false_eq_true, if_false]
  exact replCore_id pat rep s s.length h

lemma aggText_blanks (xs : List Str) : aggText (xs.map (fun _ => ([] : Str))) = [] := by
  induction xs with
  | nil => rfl
  | cons x xs ih => simpa [aggText] using ih

lemma aggText_single (r : Str) : aggText [r] = r := by
  simp [aggText]

lemma NoResidual.src_ne_nil {M : Mapping} (h : NoResidual M) {p : Str × Str}
    (hp : p ∈ M) : p.1 ≠ [] := by
  intro hnil
  have h2 := h p hp []
  rw [hnil, occursB_nil_pat] at h2
  simp at h2

lemma occursB_a_replCore : ∀ (s : Str) (fuel : Nat), s.length ≤ fuel →
    occursB ['a'] (replCore ['a'] ['b'] fuel s) = false := by
  intro s
  induction s with
  | nil => intro fuel _; cases fuel <;> rfl
  | cons c cs ih =>
    intro fuel hf
    cases fuel with
    | zero => simp at hf
    | succ f =>
      have hf2 : cs.length ≤ f := by simpa using hf
      by_cases hc : c = 'a'
      · subst hc
        have hpfx : isPfx ['a'] ('a' :: cs) = true := by simp [isPfx]
        simp only [replCore, hpfx, if_true, List.drop_succ_cons, List.drop_zero]
        simpa [occursB, isPfx] using ih f hf2
      · have hpfx : isPfx ['a'] (c :: cs) = false := by simp [isPfx]; exact fun h => absurd h.symm hc
        simp only [replCore, hpfx, Bool.false_eq_true, if_false]
        simp only [occursB, isPfx]
        have : ('a' == c) = false := by simp; exact fun h => absurd h.symm hc
        simpa [this] using ih f hf2

lemma finalFold_fst_aux : ∀ (L : Mapping) (t : Str) (b : Bool), (∀ p ∈ L, p.1 ≠ []) →
    (List.foldl Structured.finalStep (t, b) L).1 = List.foldl applyStep t L := by
  intro L
  induction L with
  | nil => intro t b _; rfl
  | cons q L ih =>
    intro t b hL
    rw [List.foldl_cons, List.foldl_cons]
    cases hq : occursB q.1 t with
    | true =>
      have hstep : Structured.finalStep (t, b) q = (pyReplace q.1 q.2 t, true) := by
        simp [Structured.finalStep, hq]
      rw [hstep, show applyStep t q = pyReplace q.1 q.2 t from rfl]
      exact ih _ _ (fun p hp => hL p (List.mem_cons_of_mem _ hp))
    | false =>
      have hstep : Structured.finalStep (t, b) q = (t, b) := by
        simp [Structured.finalStep, hq]
      have happ : applyStep t q = t :=
        pyReplace_id _ _ _ (hL q (List.mem_cons_self _ _)) hq
      rw [hstep, happ]
      exact ih _ _ (fun p hp => hL p (List.mem_cons_of_mem _ hp))

lemma finalFold_fst (M : Mapping) (t : Str) (hM : ∀ p ∈ M, p.1 ≠ []) :
    (Structured.finalFold M t).1 = applyAll M t :=
  finalFold_fst_aux M t false hM

lemma runLocal_id : ∀ (L : Mapping) (rs : List Str),
    (∀ p ∈ L, occursB p.1 (aggText rs) = false) →
    List.foldl runLocalStep rs L = rs := by
  intro L
  induction L with
  | nil => intro rs _; rfl
  | cons q L ih =>
    intro rs h
    have hstep : runLocalStep rs q = rs := by
      simp [runLocalStep, h q (List.mem_cons_self _ _)]
    rw [List.foldl_cons, hstep]
    exact ih rs (fun p hp => h p (List.mem_cons_of_mem _ hp))

lemma rebuild_id (M : Mapping) : ∀ (L : Mapping) (rs : List Str),
    (∀ p ∈ L, occursB p.1 (aggText rs) = false) →
    List.foldl (Structured.rebuildStep M) rs L = rs := by
  intro L
  induction L with
  | nil => intro rs _; rfl
  | cons q L ih =>
    intro rs h
    have hstep : Structured.rebuildStep M rs q = rs := by
      simp [Structured.rebuildStep, h q (List.mem_cons_self _ _)]
    rw [List.foldl_cons, hstep]
    exact ih rs (fun p hp => h p (List.mem_cons_of_mem _ hp))

lemma rebuild_no_source (M : Mapping) (hpre : NoResidual M) :
    ∀ (L : Mapping) (rs : List Str),
      (∀ p ∈ M, p ∈ L ∨ occursB p.1 (aggText rs) = false) →
      ∀ p ∈ M, occursB p.1 (aggText (List.foldl (Structured.rebuildStep M) rs L)) = false := by
  intro L
  induction L with
  | nil =>
    intro rs h p hp
    rcases h p hp with h2 | h2
    · simp at h2
    · exact h2
  | cons q L ih =>
    intro rs h p hp
    rw [List.foldl_cons]
    cases hg : occursB q.1 (aggText rs) with
    | false =>
      have hstep : Structured.rebuildStep M rs q = rs := by
        simp [Structured.rebuildStep, hg]
      rw [hstep]
      refine ih rs (fun p2 hp2 => ?_) p hp
      rcases h p2 hp2 with h2 | h2
      · rcases List.mem_cons.mp h2 with h3 | h3
        · subst h3; exact Or.inr hg
        · exact Or.inl h3
      · exact Or.inr h2
    | true =>
      cases rs with
      | nil =>
        have hstep : Structured.rebuildStep M [] q = [] := by
          simp [Structured.rebuildStep]
        rw [hstep]
        refine ih [] (fun p2 hp2 => Or.inr ?_) p hp
        show occursB p2.1 (aggText []) = false
        have : p2.1 ≠ [] := hpre.src_ne_nil hp2
        simpa [aggText, occursB] using isEmpty_false_of_ne_nil this
      | cons r0 rest =>
        have hstep : Structured.rebuildStep M (r0 :: rest) q =
            applyAll M (aggText (r0 :: rest)) :: rest.map (fun _ => ([] : Str)) := by
          simp [Structured.rebuildStep, hg]
        rw [hstep]
        refine ih _ (fun p2 hp2 => Or.inr ?_) p hp
        show occursB p2.1 (aggText (applyAll M (aggText (r0 :: rest)) :: rest.map _)) = false
        rw [aggText, aggText_blanks, List.append_nil]
        exact hpre p2 hp2 _

lemma rp_no_source (M : Mapping) (hpre : NoResidual M) (runs : List Str) :
    ∀ p ∈ M, occursB p.1 (aggText (Structured.replace_in_paragraph M runs)) = false := by
  intro p hp
  rw [Structured.replace_in_paragraph]
  exact rebuild_no_source M hpre M _ (fun p2 hp2 => Or.inl hp2) p hp

lemma rp_fix (M : Mapping) (rs : List Str)
    (h : ∀ p ∈ M, occursB p.1 (aggText rs) = false) :
    Structured.replace_in_paragraph M rs = rs := by
  rw [Structured.replace_in_paragraph, Translate.replace_in_paragraph, runLocal_id M rs h,
    rebuild_id M M rs h]

lemma finalPass_agg (M : Mapping) (runs : List Str) (hM : ∀ p ∈ M, p.1 ≠ []) :
    aggText (Structured.finalPass M runs) = aggText runs ∨
    aggText (Structured.finalPass M runs) = applyAll M (aggText runs) := by
  rw [Structured.finalPass.eq_def]
  by_cases h1 : (aggText runs).isEmpty = true
  · rw [if_pos h1]; exact Or.inl rfl
  · rw [if_neg h1]
    by_cases h2 : (Structured.finalFold M (aggText runs)).2 = true
    · rw [if_pos h2]
      right
      cases runs with
      | nil => simp [aggText] at h1
      | cons r0 rest =>
        show aggText ((Structured.finalFold M (aggText (r0 :: rest))).1 ::
          rest.map (fun _ => ([] : Str))) = _
        rw [aggText, aggText_blanks, List.append_nil, finalFold_fst M _ hM]
    · rw [if_neg h2]; exact Or.inl rfl

lemma runLocal_single : ∀ (L : Mapping) (r : Str), (∀ p ∈ L, p.1 ≠ []) →
    List.foldl runLocalStep [r] L = [List.foldl applyStep r L] := by
  intro L
  induction L with
  | nil => intro r _; rfl
  | cons q L ih =>
    intro r hL
    have hag : aggText [r] = r := aggText_single r
    have hstep : runLocalStep [r] q = [applyStep r q] := by
      cases hg : occursB q.1 r with
      | true => simp [runLocalStep, hag, hg, applyStep]
      | false =>
        have : applyStep r q = r :=
          pyReplace_id _ _ _ (hL q (List.mem_cons_self _ _)) hg
        simp [runLocalStep, hag, hg, this]
    rw [List.foldl_cons, List.foldl_cons, hstep]
    exact ih _ (fun p hp => hL p (List.mem_cons_of_mem _ hp))

lemma runLocalStep_length (rs : List Str) (p : Str × Str) :
    (runLocalStep rs p).length = rs.length := by
  rw [runLocalStep]
  split <;> simp

lemma runLocal_length : ∀ (L : Mapping) (rs : List Str),
    (List.foldl runLocalStep rs L).length = rs.length := by
  intro L
  induction L with
  | nil => intro rs; rfl
  | cons q L ih => intro rs; rw [List.foldl_cons, ih, runLocalStep_length]

lemma runLocal_get : ∀ (L : Mapping) (rs : List Str) (i : Nat) (r : Str),
    rs[i]? = some r → (∀ p ∈ L, occursB p.1 r = false) →
    (List.foldl runLocalStep rs L)[i]? = some r := by
  intro L
  induction L with
  | nil => intro rs i r h _; exact h
  | cons q L ih =>
    intro rs i r h hL
    rw [List.foldl_cons]
    refine ih _ _ _ ?_ (fun p hp => hL p (List.mem_cons_of_mem _ hp))
    rw [runLocalStep]
    split
    · rw [List.getElem?_map, h]
      simp [hL q (List.mem_cons_self _ _)]
    · exact h

lemma runLocal_all_id : ∀ (L : Mapping) (rs : List Str),
    (∀ p ∈ L, ∀ r ∈ rs, occursB p.1 r = false) →
    List.foldl runLocalStep rs L = rs := by
  intro L
  induction L with
  | nil => intro rs _; rfl
  | cons q L ih =>
    intro rs h
    have hstep : runLocalStep rs q = rs := by
      rw [runLocalStep]
      split
      · have hpt : ∀ r ∈ rs,
            (if occursB q.1 r = true then pyReplace q.1 q.2 r else r) = r := by
          intro r hr
          simp [h q (List.mem_cons_self _ _) r hr]
        rw [List.map_congr_left hpt]
        exact List.map_id' rs
      · rfl
    rw [List.foldl_cons, hstep]
    exact ih rs (fun p hp => h p (List.mem_cons_of_mem _ hp))

lemma hasChar_false_iff (s : Str) (c : Char) : hasChar s c = false ↔ ∀ d ∈ s, d ≠ c := by
  simp [hasChar]

lemma hasChar_of_subset {s t : Str} {c : Char} (hsub : s ⊆ t)
    (ht : hasChar t c = false) : hasChar s c = false := by
  rw [hasChar_false_iff] at *
  exact fun d hd => ht d (hsub hd)

lemma splitFirst_of_no_sep (sep : Char) : ∀ (s t : Str), hasChar s sep = false →
    splitFirst sep (s ++ sep :: t) = (s, t) := by
  intro s
  induction s with
  | nil => intro t _; simp [splitFirst]
  | cons c s ih =>
    intro t h
    rw [hasChar_false_iff] at h
    have hc : (c == sep) = false := by
      simp
      exact h c (List.mem_cons_self _ _)
    have ih2 := ih t (by
      rw [hasChar_false_iff]
      exact fun d hd => h d (List.mem_cons_of_mem _ hd))
    simp [splitFirst, hc, ih2]

lemma baseName_no_slash : ∀ p : Str, hasChar (baseName p) '/' = false := by
  intro p
  induction p with
  | nil => rfl
  | cons c rest ih =>
    cases hb : hasChar (c :: rest) '/' with
    | true => simpa [baseName, hb] using ih
    | false => simp [baseName, hb]

lemma baseName_id_of_no_slash (p : Str) (h : hasChar p '/' = false) : baseName p = p := by
  cases p with
  | nil => rfl
  | cons c rest => simp [baseName, h]

lemma baseName_append (xs ys : Str) : baseName (xs ++ '/' :: ys) = baseName ys := by
  induction xs with
  | nil =>
    have h : hasChar ('/' :: ys) '/' = true := by simp [hasChar]
    simp [baseName, h]
  | cons c xs ih =>
    have h : hasChar (c :: (xs ++ '/' :: ys)) '/' = true := by
      simp [hasChar]
    simpa [baseName, h] using ih

lemma stem_suffix_recomp (n : Str) : pathStem n ++ pathSuffix n = n := by
  by_cases h : 0 < lastDotPos n ∧ lastDotPos n + 1 < n.length
  · simp [pathStem, pathSuffix, h, List.take_append_drop]
  · simp [pathStem, pathSuffix, h]

lemma outputName_no_slash (docPath : Str) : hasChar (outputName docPath) '/' = false := by
  have hbn := baseName_no_slash docPath
  have h1 : hasChar (pathStem (baseName docPath)) '/' = false := by
    rw [pathStem]
    split
    · exact hasChar_of_subset (List.take_subset _ _) hbn
    · exact hbn
  have h2 : hasChar (pathSuffix (baseName docPath)) '/' = false := by
    rw [pathSuffix]
    split
    · exact hasChar_of_subset (List.drop_subset _ _) hbn
    · rfl
  have h3 : hasChar translatedTag '/' = false := by decide
  rw [hasChar_false_iff] at h1 h2 h3 ⊢
  rw [outputName]
  intro d hd
  rcases List.mem_append.mp hd with hd2 | hd2
  · rcases List.mem_append.mp hd2 with hd3 | hd3
    · exact h1 d hd3
    · exact h3 d hd3
  · exact h2 d hd2

lemma outputPath_ne (outDir docPath : Str) : outputPath outDir docPath ≠ docPath := by
  intro h
  have h1 : baseName docPath = outputName docPath := by
    conv_lhs => rw [← h]
    rw [outputPath, baseName_append, baseName_id_of_no_slash _ (outputName_no_slash docPath)]
  have h2 : pathStem (baseName docPath) ++ pathSuffix (baseName docPath) = baseName docPath :=
    stem_suffix_recomp _
  rw [outputName] at h1
  have hl1 := congrArg List.length h1
  have hl2 := congrArg List.length h2
  have htag : translatedTag.length = 11 := by decide
  simp only [List.length_append, htag] at hl1 hl2
  omega

lemma noResidual_ab : NoResidual [(['a'], ['b'])] := by
  intro p hp t
  rw [List.mem_singleton] at hp
  subst hp
  show occursB ['a'] (applyAll [(['a'], ['b'])] t) = false
  rw [applyAll]
  simp only [List.foldl_cons, List.foldl_nil, applyStep]
  rw [pyReplace]
  simp only [List.isEmpty_cons, Bool.false_eq_true, if_false]
  exact occursB_a_replCore t t.length le_rfl

/-! ## Claim theorems -/

/-- C1 (counterexample): the no-match-left invariant fails as stated.  For
the mapping [("aa", "a")] the single target "a" contains no source, the
source "aa" occurs in the paragraph ["aaaaaaaaa"] before substitution,
and yet after `replace_in_paragraph` followed by the final re-pass the
aggregate text (which is "aa") still contains the source: replacing "aa"
by "a" creates fresh occurrences across the seams, and the engine's
finitely many passes do not exhaust them. -/
theorem noMatchLeft_counterexample :
    occursB ( "aa".toList) ( "a".toList) = false ∧
    occursB ( "aa".toList) (aggText [ "aaaaaaaaa".toList]) = true ∧
    occursB ( "aa".toList)
      (aggText (Structured.engine [( "aa".toList, "a".toList)] [ "aaaaaaaaa".toList])) = true := by
  decide

/-- C1 (amended): under the strengthened precondition that one in-order
application of the whole mapping to any text leaves no occurrence of any
source (`NoResidual`, i.e. no target contains *or creates* a source), if
a source occurred in the paragraph's aggregate text before substitution,
then after `replace_in_paragraph` followed by the final re-pass of
`translate_document_preserve_formatting` the aggregate text contains no
occurrence of that source. -/
theorem noMatchLeft_amended (M : Mapping) (runs : List Str) (s d : Str)
    (hmem : (s, d) ∈ M) (hpre : NoResidual M)
    (_hbefore : occursB s (aggText runs) = true) :
    occursB s (aggText (Structured.engine M runs)) = false := by
  have hR : occursB s (aggText (Structured.replace_in_paragraph M runs)) = false :=
    rp_no_source M hpre runs (s, d) hmem
  have hM : ∀ p ∈ M, p.1 ≠ [] := fun p hp => hpre.src_ne_nil hp
  rw [Structured.engine]
  rcases finalPass_agg M (Structured.replace_in_paragraph M runs) hM with h | h
  · rw [h]; exact hR
  · rw [h]; exact hpre (s, d) hmem _

/-- C1 (witness for the amended theorem). -/
theorem noMatchLeft_amended_witness :
    occursB ['a'] (aggText (Structured.engine [(['a'], ['b'])] [['a']])) = false :=
  noMatchLeft_amended [(['a'], ['b'])] [['a']] ['a'] ['b'] (by decide) noResidual_ab (by decide)

/-- C2: run-straddling coverage.  For the paragraph with runs
["Inv", "oice #123"] and the single-pair mapping ("Invoice", "Factura"),
the structured `replace_in_paragraph` yields aggregate text
"Factura #123", although no single run contains the full source. -/
theorem runStraddling_coverage :
    aggText (Structured.replace_in_paragraph
      [( "Invoice".toList, "Factura".toList)]
      [ "Inv".toList, "oice #123".toList]) = "Factura #123".toList := by
  decide

/-- C3: idempotence.  When no target string reintroduces (contains or
creates) any source string — formalised as `NoResidual`: one in-order
application of the whole mapping to any text leaves no source occurrence
— applying the substitution operation `replace_in_paragraph` twice
yields the same aggregate text as applying it once. -/
theorem substitution_idempotent (M : Mapping) (runs : List Str) (hpre : NoResidual M) :
    aggText (Structured.replace_in_paragraph M (Structured.replace_in_paragraph M runs)) =
      aggText (Structured.replace_in_paragraph M runs) := by
  rw [rp_fix M _ (rp_no_source M hpre runs)]

/-- C3 (witness). -/
theorem substitution_idempotent_witness :
    aggText (Structured.replace_in_paragraph [(['a'], ['b'])]
        (Structured.replace_in_paragraph [(['a'], ['b'])] [['a']])) =
      aggText (Structured.replace_in_paragraph [(['a'], ['b'])] [['a']]) :=
  substitution_idempotent [(['a'], ['b'])] [['a']] noResidual_ab

/-- C4 (counterexample): the substitution result is not, in general, the
in-insertion-order sequential replace-all of the aggregate text.  With the
overlapping sources "category" (first) and "cat" (second) and a paragraph
whose runs split the word as ["cat", "egory"], the run-local pass fires
the *later, shorter* entry inside the first run, producing "dogegory",
while the in-order replace-all of the aggregate "category" produces
"X". -/
theorem orderSensitivity_counterexample :
    aggText (Structured.replace_in_paragraph
        [( "category".toList, "X".toList), ( "cat".toList, "dog".toList)]
        [ "cat".toList, "egory".toList]) = "dogegory".toList ∧
    applyAll [( "category".toList, "X".toList), ( "cat".toList, "dog".toList)]
        (aggText [ "cat".toList, "egory".toList]) = "X".toList ∧
    aggText (Structured.replace_in_paragraph
        [( "category".toList, "X".toList), ( "cat".toList, "dog".toList)]
        [ "cat".toList, "egory".toList]) ≠
      applyAll [( "category".toList, "X".toList), ( "cat".toList, "dog".toList)]
        (aggText [ "cat".toList, "egory".toList]) := by
  decide

/-- C4 (amended): substitution applies the mapping entries strictly in
insertion order with no longest-match preference: for every single-run
paragraph, and every mapping satisfying `NoResidual` (one in-order
application of the whole mapping leaves no source occurrence, so no
replacement can retrigger the rebuild pass), the resulting aggregate text
is exactly the result of performing each entry's replace-all on the text
in insertion order. -/
theorem orderSensitivity_amended (M : Mapping) (hpre : NoResidual M) (r : Str) :
    aggText (Structured.replace_in_paragraph M [r]) = applyAll M r := by
  have hM : ∀ p ∈ M, p.1 ≠ [] := fun p hp => hpre.src_ne_nil hp
  rw [Structured.replace_in_paragraph, Translate.replace_in_paragraph, runLocal_single M r hM]
  rw [rebuild_id M M _ ?_]
  · rw [aggText_single]; rfl
  · intro p hp
    rw [aggText_single]
    exact hpre p hp r

/-- C4 (witness for the amended theorem). -/
theorem orderSensitivity_amended_witness :
    aggText (Structured.replace_in_paragraph [(['a'], ['b'])] [['a', 'a']]) =
      applyAll [(['a'], ['b'])] ['a', 'a'] :=
  orderSensitivity_amended [(['a'], ['b'])] noResidual_ab ['a', 'a']

/-- C5: the mapping loader contract.  On the file content
"foo=bar\n\nbaz\nqux=quux\n" `load_mapping` returns exactly
[("foo", "bar"), ("qux", "quux")]; in general a line that is empty after
stripping or contains no equals sign leaves the mapping unchanged, and a
stripped line of the shape s ++ "=" ++ t with no equals sign in s is
split on that first equals sign, s verbatim as source and t verbatim as
target. -/
theorem mappingLoader_contract :
    load_mapping ( "foo=bar\n\nbaz\nqux=quux\n".toList) =
      [( "foo".toList, "bar".toList), ( "qux".toList, "quux".toList)] ∧
    (∀ (m : Mapping) (raw : Str),
      ((pyStrip raw).isEmpty || !(hasChar (pyStrip raw) '=')) = true →
      processLine m raw = m) ∧
    (∀ (m : Mapping) (s t : Str), hasChar s '=' = false →
      pyStrip (s ++ '=' :: t) = s ++ '=' :: t →
      processLine m (s ++ '=' :: t) = dictInsert m s t) := by
  refine ⟨by decide, ?_, ?_⟩
  · intro m raw h
    rw [processLine]
    simp only [h, if_true]
  · intro m s t hs hstrip
    rw [processLine]
    simp only [hstrip]
    have h1 : (s ++ '=' :: t).isEmpty = false :=
      isEmpty_false_of_ne_nil (by simp)
    have h2 : hasChar (s ++ '=' :: t) '=' = true := by
      simp [hasChar]
    rw [h1, h2, splitFirst_of_no_sep '=' s t hs]
    simp

/-- C5 (witness). -/
theorem mappingLoader_contract_witness :
    processLine [] ( "   ".toList) = [] ∧
    processLine [] ( "a".toList ++ '=' :: "b=c".toList) =
      dictInsert [] ( "a".toList) ( "b=c".toList) :=
  ⟨mappingLoader_contract.2.1 [] ( "   ".toList) (by decide),
   mappingLoader_contract.2.2 [] ( "a".toList) ( "b=c".toList) (by decide) (by decide)⟩

/-- C6: output path derivation.  Whenever the input document exists,
`translate_document` succeeds, creates the output directory, stores the
mutated document at exactly output_dir/stem_translated+suffix and returns
that path; concretely, input "invoice_2024.pdf" with output directory
"translated" produces "translated/invoice_2024_translated.pdf". -/
theorem outputPathDerivation :
    (∀ (fs : FS) (docPath : Str) (M : Mapping) (outDir : Str) (doc : Docx),
      lookupFile fs docPath = some doc →
      ∃ fs2, Translate.translate_document fs docPath M outDir =
          some (fs2, outputPath outDir docPath) ∧
        outDir ∈ fs2.dirs ∧
        lookupFile fs2 (outputPath outDir docPath) =
          some (Translate.translateDocx M doc)) ∧
    outputPath ( "translated".toList) ( "invoice_2024.pdf".toList) =
      "translated/invoice_2024_translated.pdf".toList := by
  refine ⟨?_, by decide⟩
  intro fs docPath M outDir doc h
  refine ⟨saveFile (mkdirParents fs outDir) (outputPath outDir docPath)
    (Translate.translateDocx M doc), ?_, ?_, ?_⟩
  · rw [Translate.translate_document, h]
  · exact List.mem_cons_self _ _
  · rw [lookupFile]
    show Option.map _ (List.find? _ ((outputPath outDir docPath, _) :: _)) = _
    rw [List.find?_cons_of_pos _ (by simp)]
    rfl

/-- C6 (witness). -/
theorem outputPathDerivation_witness :
    ∃ fs2, Translate.translate_document ⟨[], [( "a.pdf".toList, ⟨[], [], []⟩)]⟩
        ( "a.pdf".toList) [] ( "out".toList) =
        some (fs2, outputPath ( "out".toList) ( "a.pdf".toList)) ∧
      ( "out".toList) ∈ fs2.dirs ∧
      lookupFile fs2 (outputPath ( "out".toList) ( "a.pdf".toList)) =
        some (Translate.translateDocx [] ⟨[], [], []⟩) :=
  outputPathDerivation.1 ⟨[], [( "a.pdf".toList, ⟨[], [], []⟩)]⟩
    ( "a.pdf".toList) [] ( "out".toList) ⟨[], [], []⟩ rfl

/-- C7: the source file is never modified.  Whatever `translate_document`
does, looking up the input path in the resulting filesystem state yields
exactly what it yielded before the call: the document tree is mutated
only in memory and persisted solely at the derived output path, which is
provably distinct from the input path. -/
theorem sourceUntouched (fs : FS) (docPath : Str) (M : Mapping) (outDir : Str)
    (fs2 : FS) (retPath : Str)
    (h : Translate.translate_document fs docPath M outDir = some (fs2, retPath)) :
    lookupFile fs2 docPath = lookupFile fs docPath := by
  rw [Translate.translate_document] at h
  cases hl : lookupFile fs docPath with
  | none => rw [hl] at h; cases h
  | some doc =>
    rw [hl] at h
    have h2 := (Option.some.injEq _ _).mp h
    have hfs2 : fs2 = saveFile (mkdirParents fs outDir) (outputPath outDir docPath)
        (Translate.translateDocx M doc) := (congrArg Prod.fst h2).symm
    subst hfs2
    rw [lookupFile, hl.symm, lookupFile]
    show Option.map _ (List.find? _ ((outputPath outDir docPath, _) :: fs.files)) = _
    rw [List.find?_cons_of_neg _ (by simp [outputPath_ne outDir docPath])]

/-- C7 (witness). -/
theorem sourceUntouched_witness :
    lookupFile (saveFile (mkdirParents ⟨[], [( "a.pdf".toList, ⟨[], [], []⟩)]⟩ ( "out".toList))
        (outputPath ( "out".toList) ( "a.pdf".toList)) (Translate.translateDocx [] ⟨[], [], []⟩))
      ( "a.pdf".toList) =
    lookupFile ⟨[], [( "a.pdf".toList, ⟨[], [], []⟩)]⟩ ( "a.pdf".toList) :=
  sourceUntouched ⟨[], [( "a.pdf".toList, ⟨[], [], []⟩)]⟩ ( "a.pdf".toList) []
    ( "out".toList) _ _ rfl

/-- C8: batch continuation.  The batch loop of `main` processes every
file: whatever the per-file processing does on earlier files (including
raising an exception, which the loop catches as an `errored` outcome),
the file after them and all later files are still processed, and the loop
produces exactly one outcome per input file. -/
theorem batchContinuation :
    (∀ (process : Str → Except Str (Option Str)) (pre post : List Str) (f : Str),
      batchLoop process (pre ++ f :: post) =
        batchLoop process pre ++ runFile process f :: batchLoop process post) ∧
    (∀ (process : Str → Except Str (Option Str)) (files : List Str),
      (batchLoop process files).length = files.length) := by
  constructor
  · intro process pre post f
    induction pre with
    | nil => rfl
    | cons g pre ih => simp [batchLoop, ih]
  · intro process files
    induction files with
    | nil => rfl
    | cons f files ih => rw [batchLoop, List.length_cons, List.length_cons, ih]

/-- C9: frame property of the base variant's `replace_in_paragraph`
(translate.py).  It preserves the number of runs; a run whose own text
contains no mapping source is left unchanged (position by position); and
when no run contains any source — in particular when every source
occurrence straddles run boundaries — the whole paragraph, hence its
aggregate text, is left completely unchanged. -/
theorem baseVariantFrame (M : Mapping) (runs : List Str) :
    (Translate.replace_in_paragraph M runs).length = runs.length ∧
    (∀ (i : Nat) (r : Str), runs[i]? = some r →
      (∀ p ∈ M, occursB p.1 r = false) →
      (Translate.replace_in_paragraph M runs)[i]? = some r) ∧
    ((∀ p ∈ M, ∀ r ∈ runs, occursB p.1 r = false) →
      Translate.replace_in_paragraph M runs = runs) := by
  refine ⟨runLocal_length M runs, ?_, ?_⟩
  · intro i r h hr
    exact runLocal_get M runs i r h hr
  · intro h
    exact runLocal_all_id M runs h

/-- C9 (witness). -/
theorem baseVariantFrame_witness :
    (Translate.replace_in_paragraph [(['a'], ['b'])] [['x'], ['a']]).length = 2 ∧
    (Translate.replace_in_paragraph [(['a'], ['b'])] [['x'], ['a']])[0]? = some ['x'] ∧
    Translate.replace_in_paragraph [(['a'], ['b'])] [['x'], ['x']] = [['x'], ['x']] :=
  ⟨(baseVariantFrame [(['a'], ['b'])] [['x'], ['a']]).1,
   (baseVariantFrame [(['a'], ['b'])] [['x'], ['a']]).2.1 0 ['x'] (by decide) (by decide),
   (baseVariantFrame [(['a'], ['b'])] [['x'], ['x']]).2.2 (by decide)⟩

/-- C10: an empty-source mapping entry.  A stripped line beginning with
an equals sign is not skipped: it yields the entry whose source is the
empty string; concretely `load_mapping` on "=bar\n" returns the mapping
[("", "bar")]. -/
theorem emptySourceEntry :
    load_mapping ( "=bar\n".toList) = [([], "bar".toList)] ∧
    (∀ (m : Mapping) (t : Str), pyStrip ('=' :: t) = '=' :: t →
      processLine m ('=' :: t) = dictInsert m [] t) := by
  refine ⟨by decide, ?_⟩
  intro m t h
  rw [processLine]
  simp only [h]
  have h2 : hasChar ('=' :: t) '=' = true := by simp [hasChar]
  rw [List.isEmpty_cons, h2]
  show dictInsert m (splitFirst '=' ('=' :: t)).1 (splitFirst '=' ('=' :: t)).2 = _
  simp [splitFirst]

/-- C10 (witness). -/
theorem emptySourceEntry_witness :
    processLine [] ('=' :: "bar".toList) = dictInsert [] [] ( "bar".toList) :=
  emptySourceEntry.2 [] ( "bar".toList) (by decide)

end InvoiceTranslator
